import Mathlib

/-!
Shallow embedding of the sqlblaster credential-trial pipeline
(`sqlblaster.go`): source streams, pair generation, progress estimation,
and the bounded worker-pool scheduler, together with theorems checking the
natural-language specification against this embedding.

Files are modelled as the list of their raw lines; channels carrying a
finite stream of values are modelled as the list of values sent before the
channel closes.
-/

namespace SqlBlaster

/-- Embedding of Go `strings.TrimSpace` on the character list of a string:
drop leading whitespace, then drop trailing whitespace. -/
def trimChars (l : List Char) : List Char :=
  ((l.dropWhile Char.isWhitespace).reverse.dropWhile Char.isWhitespace).reverse

/-- Embedding of `strings.TrimSpace` on strings. -/
def trimGo (s : String) : String :=
  String.mk (trimChars s.data)

theorem dropWhile_head_false {α : Type} (p : α → Bool) :
    ∀ (l : List α) (a : α) (t : List α), l.dropWhile p = a :: t → p a = false := by
  intro l
  induction l with
  | nil => intro a t h; simp [List.dropWhile] at h
  | cons b l ih =>
      intro a t h
      by_cases hb : p b
      · rw [List.dropWhile_cons_of_pos hb] at h
        exact ih a t h
      · rw [List.dropWhile_cons_of_neg hb] at h
        cases h
        simpa using hb

theorem dropWhile_cons_head_false {α : Type} (p : α → Bool) (a : α) (t : List α)
    (h : p a = false) : (a :: t).dropWhile p = a :: t := by
  simp [List.dropWhile_cons_of_neg, h]

theorem exists_dropWhile_append {α : Type} (p : α → Bool) :
    ∀ l : List α, ∃ t : List α, t ++ l.dropWhile p = l := by
  intro l
  induction l with
  | nil => exact ⟨[], rfl⟩
  | cons a l ih =>
      by_cases ha : p a
      · obtain ⟨t, ht⟩ := ih
        exact ⟨a :: t, by simp [List.dropWhile_cons_of_pos ha, ht]⟩
      · exact ⟨[], by simp [List.dropWhile_cons_of_neg ha]⟩

/-- Trimming is idempotent, at the character-list level. -/
theorem trimChars_idem (l : List Char) : trimChars (trimChars l) = trimChars l := by
  unfold trimChars
  obtain ⟨t, ht⟩ := exists_dropWhile_append Char.isWhitespace (l.dropWhile Char.isWhitespace).reverse
  set r := (l.dropWhile Char.isWhitespace).reverse.dropWhile Char.isWhitespace with hr
  cases hrev : r.reverse with
  | nil =>
      have : r = [] := by simpa using congrArg List.reverse hrev
      simp [this]
  | cons a t2 =>
      have hne : r ≠ [] := by
        intro h0; rw [h0] at hrev; simp at hrev
      -- head of r.reverse is the head of l.dropWhile, hence not whitespace
      have hl1 : l.dropWhile Char.isWhitespace = a :: (t2 ++ t.reverse) := by
        have h1 : (t ++ r).reverse = l.dropWhile Char.isWhitespace := by
          have := congrArg List.reverse ht
          simpa using this
        rw [← h1]
        simp [hrev]
      have ha : Char.isWhitespace a = false :=
        dropWhile_head_false _ _ _ _ hl1
      -- head of r itself is not whitespace either
      obtain ⟨b, tb, hb⟩ : ∃ b tb, r = b :: tb := by
        cases hcr : r with
        | nil => exact absurd hcr hne
        | cons b tb => exact ⟨b, tb, rfl⟩
      have hbfalse : Char.isWhitespace b = false := by
        apply dropWhile_head_false Char.isWhitespace (l.dropWhile Char.isWhitespace).reverse b tb
        rw [← hr, hb]
      have step2 : r.dropWhile Char.isWhitespace = r := by
        rw [hb]; exact dropWhile_cons_head_false _ _ _ hbfalse
      have e1 : List.dropWhile Char.isWhitespace (a :: t2) = a :: t2 :=
        dropWhile_cons_head_false _ _ _ ha
      have e2 : (a :: t2).reverse = r := by rw [← hrev]; simp
      rw [e1, e2, step2, hrev]

theorem trimGo_idem (s : String) : trimGo (trimGo s) = trimGo s := by
  unfold trimGo
  simp [trimChars_idem]

/-- Embedding of `singleValueChannel`: a channel that yields exactly the
given value, verbatim, then closes. -/
def singleValueChannel (value : String) : List String :=
  [value]

/-- Embedding of `streamLinesFromFile`: trim each raw line, emit it when the
trimmed line is non-empty, in file order. -/
def streamLinesFromFile (lines : List String) : List String :=
  (lines.map trimGo).filter (fun line => line ≠ "")

/-- Embedding of the scanner loop of `resumeStreamFromFile`: `foundLast`
carries the flag state across lines. Blank lines are skipped; before the
sentinel is found, a line whose trim equals `lastValue` flips the flag and
is itself discarded; after the flag is set, trimmed lines are emitted. -/
def resumeAux (lastValue : String) : List String → Bool → List String
  | [], _ => []
  | raw :: rest, foundLast =>
    let line := trimGo raw
    if line = "" then resumeAux lastValue rest foundLast
    else if foundLast then line :: resumeAux lastValue rest foundLast
    else if line = lastValue then resumeAux lastValue rest true
    else resumeAux lastValue rest foundLast

/-- Embedding of `resumeStreamFromFile`: the flag starts true exactly when
`lastValue` is the empty string. -/
def resumeStreamFromFile (lines : List String) (lastValue : String) : List String :=
  resumeAux lastValue lines (decide (lastValue = ""))

/-- Embedding of `countLines`: the number of lines whose trim is non-empty. -/
def countLines (lines : List String) : Nat :=
  (lines.filter (fun raw => trimGo raw ≠ "")).length

/-- A username/password pair, as in the `Credential` struct. -/
structure Credential where
  user : String
  pass : String
  deriving DecidableEq

/-- Embedding of the user-first branch of `buildCredentialPairs`: outer loop
over users, inner loop over passwords. -/
def pairsUserFirst : List String → List String → List Credential
  | [], _ => []
  | u :: us, ps => ps.map (fun p => ⟨u, p⟩) ++ pairsUserFirst us ps

/-- Embedding of the password-first branch of `buildCredentialPairs`: outer
loop over the streamed passwords, inner loop over the buffered users. -/
def pairsPassFirst (us : List String) : List String → List Credential
  | [] => []
  | p :: ps => us.map (fun u => ⟨u, p⟩) ++ pairsPassFirst us ps

/-- Embedding of `buildCredentialPairs`, dispatching on the strategy flag. -/
def buildCredentialPairs (userChan passChan : List String) (userFirst : Bool) :
    List Credential :=
  if userFirst then pairsUserFirst userChan passChan
  else pairsPassFirst userChan passChan

/-- Embedding of the `totalTests` computation at the top of
`performTesting`, with the file system modelled as a map from file name to
raw lines. A set `singleUser`/`singlePass` is a non-empty string; a set
`userList`/`passList` is a non-empty file name. -/
def totalTests (files : String → List String)
    (singleUser userList singlePass passList : String) : Nat :=
  if singleUser ≠ "" then
    if singlePass ≠ "" then 1
    else if passList ≠ "" then countLines (files passList)
    else 1
  else if userList ≠ "" then
    if singlePass ≠ "" then countLines (files userList)
    else if passList ≠ "" then countLines (files userList) * countLines (files passList)
    else countLines (files userList)
  else 0

theorem pairsUserFirst_length (us ps : List String) :
    (pairsUserFirst us ps).length = us.length * ps.length := by
  induction us with
  | nil => simp [pairsUserFirst]
  | cons u us ih => simp [pairsUserFirst, ih, Nat.succ_mul, Nat.add_comm]

theorem pairsPassFirst_length (us ps : List String) :
    (pairsPassFirst us ps).length = us.length * ps.length := by
  induction ps with
  | nil => simp [pairsPassFirst]
  | cons p ps ih => simp [pairsPassFirst, ih, Nat.mul_succ, Nat.add_comm]

theorem pairsUserFirst_getElem? (us ps : List String) :
    ∀ (a b : Nat) (ha : a < us.length) (hb : b < ps.length),
      (pairsUserFirst us ps)[a * ps.length + b]? =
        some ⟨us.get ⟨a, ha⟩, ps.get ⟨b, hb⟩⟩ := by
  induction us with
  | nil => intro a b ha _; simp at ha
  | cons u us ih =>
      intro a b ha hb
      cases a with
      | zero =>
          rw [pairsUserFirst]
          rw [List.getElem?_append_left (by simpa using hb)]
          simp [List.getElem?_map, List.getElem?_eq_getElem hb]
      | succ a =>
          rw [pairsUserFirst]
          have hge : (ps.map (fun p => (⟨u, p⟩ : Credential))).length ≤
              (a + 1) * ps.length + b := by
            simp [Nat.succ_mul]
            omega
          rw [List.getElem?_append_right hge]
          have harith : (a + 1) * ps.length + b -
              (ps.map (fun p => (⟨u, p⟩ : Credential))).length = a * ps.length + b := by
            simp [Nat.succ_mul]
            omega
          rw [harith]
          exact ih a b (Nat.lt_of_succ_lt_succ ha) hb

theorem pairsPassFirst_getElem? (us ps : List String) :
    ∀ (a b : Nat) (ha : a < us.length) (hb : b < ps.length),
      (pairsPassFirst us ps)[b * us.length + a]? =
        some ⟨us.get ⟨a, ha⟩, ps.get ⟨b, hb⟩⟩ := by
  induction ps with
  | nil => intro a b _ hb; simp at hb
  | cons p ps ih =>
      intro a b ha hb
      cases b with
      | zero =>
          rw [pairsPassFirst]
          rw [List.getElem?_append_left (by simpa using ha)]
          simp [List.getElem?_map, List.getElem?_eq_getElem ha]
      | succ b =>
          rw [pairsPassFirst]
          have hge : (us.map (fun v => (⟨v, p⟩ : Credential))).length ≤
              (b + 1) * us.length + a := by
            simp [Nat.succ_mul]
            omega
          rw [List.getElem?_append_right hge]
          have harith : (b + 1) * us.length + a -
              (us.map (fun v => (⟨v, p⟩ : Credential))).length = b * us.length + a := by
            simp [Nat.succ_mul]
            omega
          rw [harith]
          exact ih a b ha (Nat.lt_of_succ_lt_succ hb)

/-- C3: for finite sources, the pair generator emits exactly the full
Cartesian product, identity-major when the user-first strategy is selected
and secret-major otherwise: both emitted sequences have length `m * n`, and
the element at the position dictated by the respective ordering is exactly
the expected (identity, secret) pair. -/
theorem C3_pair_generator_cartesian_order (users passes : List String) :
    ((buildCredentialPairs users passes true).length =
        users.length * passes.length ∧
      ∀ (a b : Nat) (ha : a < users.length) (hb : b < passes.length),
        (buildCredentialPairs users passes true)[a * passes.length + b]? =
          some ⟨users.get ⟨a, ha⟩, passes.get ⟨b, hb⟩⟩) ∧
    ((buildCredentialPairs users passes false).length =
        users.length * passes.length ∧
      ∀ (a b : Nat) (ha : a < users.length) (hb : b < passes.length),
        (buildCredentialPairs users passes false)[b * users.length + a]? =
          some ⟨users.get ⟨a, ha⟩, passes.get ⟨b, hb⟩⟩) := by
  refine ⟨⟨?_, ?_⟩, ⟨?_, ?_⟩⟩
  · simpa [buildCredentialPairs] using pairsUserFirst_length users passes
  · intro a b ha hb
    simpa [buildCredentialPairs] using pairsUserFirst_getElem? users passes a b ha hb
  · simpa [buildCredentialPairs] using pairsPassFirst_length users passes
  · intro a b ha hb
    simpa [buildCredentialPairs] using pairsPassFirst_getElem? users passes a b ha hb

theorem C3_witness :
    (buildCredentialPairs ["i1", "i2"] ["s1", "s2"] true).length = 2 * 2 ∧
    (buildCredentialPairs ["i1", "i2"] ["s1", "s2"] true)[1 * 2 + 0]? =
      some ⟨"i2", "s1"⟩ ∧
    (buildCredentialPairs ["i1", "i2"] ["s1", "s2"] false)[0 * 2 + 1]? =
      some ⟨"i2", "s1"⟩ :=
  ⟨(C3_pair_generator_cartesian_order ["i1", "i2"] ["s1", "s2"]).1.1,
   (C3_pair_generator_cartesian_order ["i1", "i2"] ["s1", "s2"]).1.2 1 0
     (by decide) (by decide),
   (C3_pair_generator_cartesian_order ["i1", "i2"] ["s1", "s2"]).2.2 1 0
     (by decide) (by decide)⟩

theorem mem_pairsUserFirst (c : Credential) :
    ∀ (us ps : List String), c ∈ pairsUserFirst us ps → c.user ∈ us := by
  intro us
  induction us with
  | nil => intro ps h; simp [pairsUserFirst] at h
  | cons u us ih =>
      intro ps h
      rw [pairsUserFirst, List.mem_append] at h
      rcases h with h | h
      · obtain ⟨p, _, rfl⟩ := List.mem_map.mp h
        simp
      · simp [ih ps h]

theorem mem_pairsPassFirst (c : Credential) (us : List String) :
    ∀ (ps : List String), c ∈ pairsPassFirst us ps → c.pass ∈ ps := by
  intro ps
  induction ps with
  | nil => intro h; simp [pairsPassFirst] at h
  | cons p ps ih =>
      intro h
      rw [pairsPassFirst, List.mem_append] at h
      rcases h with h | h
      · obtain ⟨u, _, rfl⟩ := List.mem_map.mp h
        simp
      · simp [ih h]

theorem pairsUserFirst_nodup (us ps : List String) (hu : us.Nodup) (hp : ps.Nodup) :
    (pairsUserFirst us ps).Nodup := by
  induction us with
  | nil => simp [pairsUserFirst]
  | cons u us ih =>
      rw [List.nodup_cons] at hu
      rw [pairsUserFirst]
      refine List.Nodup.append ?_ (ih hu.2) ?_
      · exact hp.map (fun p1 p2 h => by simpa using congrArg Credential.pass h)
      · intro c hc hc'
        obtain ⟨p, _, rfl⟩ := List.mem_map.mp hc
        exact hu.1 (by simpa using mem_pairsUserFirst _ us ps hc')

theorem pairsPassFirst_nodup (us ps : List String) (hu : us.Nodup) (hp : ps.Nodup) :
    (pairsPassFirst us ps).Nodup := by
  induction ps with
  | nil => simp [pairsPassFirst]
  | cons p ps ih =>
      rw [List.nodup_cons] at hp
      rw [pairsPassFirst]
      refine List.Nodup.append ?_ (ih hp.2) ?_
      · exact hu.map (fun u1 u2 h => by simpa using congrArg Credential.user h)
      · intro c hc hc'
        obtain ⟨u, _, rfl⟩ := List.mem_map.mp hc
        exact hp.1 (by simpa using mem_pairsPassFirst _ us ps hc')

/-- C4 counterexample: a file-backed source stream over a file with a
repeated line yields a stream with duplicates, and the generated pair
sequence then contains the same (identity, secret) pair twice. -/
theorem C4_counterexample :
    ¬ (buildCredentialPairs (streamLinesFromFile ["dup", "dup"])
        (singleValueChannel "p") true).Nodup := by
  decide

/-- C4 amended: for duplicate-free source streams and either strategy, the
pair generator never emits the same pair twice; this uniqueness holds by
construction of the nested loops, with no dedup set in the model. -/
theorem C4_amended_nodup (users passes : List String) (userFirst : Bool)
    (hu : users.Nodup) (hp : passes.Nodup) :
    (buildCredentialPairs users passes userFirst).Nodup := by
  unfold buildCredentialPairs
  cases userFirst with
  | true => simpa using pairsUserFirst_nodup users passes hu hp
  | false => simpa using pairsPassFirst_nodup users passes hu hp

theorem C4_amended_nodup_witness :
    (["a", "b"] : List String).Nodup ∧ (["p"] : List String).Nodup ∧
      (buildCredentialPairs ["a", "b"] ["p"] true).Nodup :=
  ⟨by decide, by decide, C4_amended_nodup ["a", "b"] ["p"] true (by decide) (by decide)⟩

theorem resumeAux_true_eq_stream (lastValue : String) (lines : List String) :
    resumeAux lastValue lines true = streamLinesFromFile lines := by
  induction lines with
  | nil => rfl
  | cons raw rest ih =>
      by_cases h : trimGo raw = ""
      · simp [resumeAux, streamLinesFromFile, List.filter_cons, h] at ih ⊢
        exact ih
      · simp [resumeAux, streamLinesFromFile, List.filter_cons, h] at ih ⊢
        exact ih

theorem resumeAux_nil_of_not_found (lastValue : String) :
    ∀ lines : List String, (∀ raw ∈ lines, trimGo raw ≠ lastValue) →
      resumeAux lastValue lines false = [] := by
  intro lines
  induction lines with
  | nil => intro _; rfl
  | cons raw rest ih =>
      intro h
      have h1 : trimGo raw ≠ lastValue := h raw (by simp)
      have hrest : ∀ r ∈ rest, trimGo r ≠ lastValue := fun r hr => h r (by simp [hr])
      by_cases hb : trimGo raw = ""
      · simpa [resumeAux, hb] using ih hrest
      · simpa [resumeAux, hb, h1] using ih hrest

theorem resumeAux_found (lastValue : String) (hne : lastValue ≠ "") :
    ∀ (pre : List String) (m : String) (post : List String),
      trimGo m = lastValue → (∀ raw ∈ pre, trimGo raw ≠ lastValue) →
      resumeAux lastValue (pre ++ m :: post) false = resumeAux lastValue post true := by
  intro pre
  induction pre with
  | nil =>
      intro m post hm _
      have hmb : ¬ (trimGo m = "") := by rw [hm]; exact hne
      simp [resumeAux, hmb, hm, hne]
  | cons raw pre ih =>
      intro m post hm hpre
      have h1 : trimGo raw ≠ lastValue := hpre raw (by simp)
      have hrest : ∀ r ∈ pre, trimGo r ≠ lastValue := fun r hr => hpre r (by simp [hr])
      by_cases hb : trimGo raw = ""
      · simpa [resumeAux, hb] using ih m post hm hrest
      · simpa [resumeAux, hb, h1] using ih m post hm hrest

/-- C5: for a non-empty sentinel, the resumable stream yields nothing when
no line trims to the sentinel, and otherwise yields exactly the non-blank
trimmed lines strictly after the first line whose trim equals the
sentinel (the same lines the plain file-backed stream yields on the
suffix). -/
theorem C5_resume_after_sentinel (lines : List String) (lastValue : String)
    (hne : lastValue ≠ "") :
    ((∀ raw ∈ lines, trimGo raw ≠ lastValue) →
        resumeStreamFromFile lines lastValue = []) ∧
    (∀ (pre : List String) (m : String) (post : List String),
        lines = pre ++ m :: post → trimGo m = lastValue →
        (∀ raw ∈ pre, trimGo raw ≠ lastValue) →
        resumeStreamFromFile lines lastValue = streamLinesFromFile post) := by
  constructor
  · intro h
    unfold resumeStreamFromFile
    rw [decide_eq_false hne]
    exact resumeAux_nil_of_not_found lastValue lines h
  · intro pre m post hsplit hm hpre
    subst hsplit
    unfold resumeStreamFromFile
    rw [decide_eq_false hne]
    rw [resumeAux_found lastValue hne pre m post hm hpre]
    exact resumeAux_true_eq_stream lastValue post

theorem C5_resume_after_sentinel_witness :
    ("u2" : String) ≠ "" ∧
    resumeStreamFromFile ["u1", "u2", "u3"] "u2" = streamLinesFromFile ["u3"] ∧
    resumeStreamFromFile ["u1", "u2", "u3"] "u9" = [] :=
  ⟨by decide,
   (C5_resume_after_sentinel ["u1", "u2", "u3"] "u2" (by decide)).2
     ["u1"] "u2" ["u3"] rfl (by decide) (by decide),
   (C5_resume_after_sentinel ["u1", "u2", "u3"] "u9" (by decide)).1 (by decide)⟩

/-- C6: with the empty-string sentinel, the resumable stream is
extensionally equal to the plain file-backed stream. -/
theorem C6_resume_empty_sentinel (lines : List String) :
    resumeStreamFromFile lines "" = streamLinesFromFile lines := by
  unfold resumeStreamFromFile
  rw [show decide (("" : String) = "") = true from rfl]
  exact resumeAux_true_eq_stream "" lines

theorem mem_resumeAux (lastValue : String) :
    ∀ (lines : List String) (found : Bool) (c : String),
      c ∈ resumeAux lastValue lines found → c ≠ "" ∧ trimGo c = c := by
  intro lines
  induction lines with
  | nil => intro found c h; simp [resumeAux] at h
  | cons raw rest ih =>
      intro found c h
      by_cases hb : trimGo raw = ""
      · rw [resumeAux] at h
        simp only [hb] at h
        simp at h
        exact ih found c h
      · rw [resumeAux] at h
        simp only [if_neg hb] at h
        cases found with
        | true =>
            simp at h
            rcases h with h | h
            · subst h
              exact ⟨hb, trimGo_idem raw⟩
            · exact ih true c h
        | false =>
            by_cases hm : trimGo raw = lastValue
            · simp [hm] at h
              exact ih true c h
            · simp [hm] at h
              exact ih false c h

/-- C9 counterexample: the literal source stream emits its value verbatim;
it emits the empty string when configured with an empty value (as the
no-password path of `performTesting` does), and emits untrimmed values. -/
theorem C9_counterexample :
    ("" ∈ singleValueChannel "") ∧
    (" admin " ∈ singleValueChannel " admin ") ∧
    trimGo " admin " ≠ " admin " := by
  decide

/-- C9 amended: candidates produced by the file-backed and resumable
streams are non-empty and equal to their own whitespace-trim; the literal
stream instead yields its configured value verbatim, which may be empty or
untrimmed. -/
theorem C9_amended_candidate_invariant (lines : List String)
    (lastValue v : String) :
    (∀ c ∈ streamLinesFromFile lines, c ≠ "" ∧ trimGo c = c) ∧
    (∀ c ∈ resumeStreamFromFile lines lastValue, c ≠ "" ∧ trimGo c = c) ∧
    singleValueChannel v = [v] := by
  refine ⟨?_, ?_, rfl⟩
  · intro c hc
    unfold streamLinesFromFile at hc
    rw [List.mem_filter] at hc
    obtain ⟨raw, _, rfl⟩ := List.mem_map.mp hc.1
    exact ⟨by simpa using hc.2, trimGo_idem raw⟩
  · intro c hc
    exact mem_resumeAux lastValue lines _ c hc

theorem C9_amended_candidate_invariant_witness :
    ("ab" ∈ streamLinesFromFile [" ab "]) ∧
    ("ab" ≠ "" ∧ trimGo "ab" = "ab") :=
  ⟨by decide,
   (C9_amended_candidate_invariant [" ab "] "x" "y").1 "ab" (by decide)⟩

/-- C10: the precomputed expected trial count is 1 for literal/literal,
the non-blank line count of the secret file for literal/file, and the
product of the two non-blank line counts for file/file. -/
theorem C10_total_tests (files : String → List String)
    (su ul sp pl : String) :
    (su ≠ "" → sp ≠ "" → totalTests files su ul sp pl = 1) ∧
    (su ≠ "" → sp = "" → pl ≠ "" →
      totalTests files su ul sp pl = countLines (files pl)) ∧
    (su = "" → ul ≠ "" → sp = "" → pl ≠ "" →
      totalTests files su ul sp pl =
        countLines (files ul) * countLines (files pl)) := by
  refine ⟨?_, ?_, ?_⟩
  · intro h1 h2; simp [totalTests, h1, h2]
  · intro h1 h2 h3; simp [totalTests, h1, h2, h3]
  · intro h1 h2 h3 h4; simp [totalTests, h1, h2, h3, h4]

theorem C10_total_tests_witness :
    totalTests (fun _ => ["s1", "s2", ""]) "admin" "" "" "pw.txt" = 2 := by
  have h := (C10_total_tests (fun _ => ["s1", "s2", ""]) "admin" "" "" "pw.txt").2.1
    (by decide) rfl (by decide)
  rw [h]
  decide

/-! ## Scheduler (bounded worker pool)

Small-step operational model of the dispatch loop, the per-pair worker
goroutines, the shared success flag and mutex, the results channel, and
the result-collector loop of `performTesting`. Each constructor of
`SchedStep` is one atomic action of one task. The Go `select` between
`ctx.Done()` and a ready channel is modelled by nondeterminism: when both
branches are enabled, both steps are available. -/

/-- Run configuration relevant to the scheduler: the worker count, the
first-only flag, and an oracle saying for which pairs `testLogin` can
succeed on the target. -/
structure SchedCfg where
  workers : Nat
  firstOnly : Bool
  succeeds : Credential → Bool

/-- Program counter of a worker goroutine.

`preCheck`/`preHeld`: before and inside the first-only pre-check of the
success flag (lock acquired in `preHeld`). `testing`: inside `testLogin`.
`reporting`/`repHeld`: a non-empty result in hand, before and inside the
lock-guarded report section. `saving`: at the `bar.Add` and `saveState`
call, after the lock was released. `finished`: returned (semaphore slot
released by the deferred receive). -/
inductive WPhase where
  | preCheck
  | preHeld
  | testing
  | reporting
  | repHeld
  | saving
  | finished
  deriving DecidableEq

/-- A spawned worker goroutine: its credential pair and program counter. -/
structure Worker where
  cred : Credential
  phase : WPhase
  deriving DecidableEq

def WPhase.notFinished : WPhase → Bool
  | .finished => false
  | _ => true

def WPhase.holdsLock : WPhase → Bool
  | .preHeld => true
  | .repHeld => true
  | _ => false

/-- Global state of one run of `performTesting`. `pending` is the part of
the generated pair sequence not yet received by the dispatch loop;
`resultsQ` is the content of the buffered `results` channel; `surfaced`
counts successes printed directly by the first-only path; `reported`
counts results printed by the collector loop. -/
structure SchedState where
  pending : List Credential
  dispatcherDone : Bool
  cancelled : Bool
  successFound : Bool
  lockHeld : Bool
  workers : List Worker
  surfaced : Nat
  resultsQ : List Credential
  reported : Nat
  collectorDone : Bool
  deriving DecidableEq

/-- Number of trial executions in flight: workers spawned whose deferred
semaphore release has not yet run. -/
def inFlight (s : SchedState) : Nat :=
  s.workers.countP (fun w => w.phase.notFinished)

/-- Number of workers currently inside a lock-guarded section. -/
def lockHolders (s : SchedState) : Nat :=
  s.workers.countP (fun w => w.phase.holdsLock)

/-- Initial phase of a spawned worker: the pre-check only runs in
first-only mode. -/
def initPhase (cfg : SchedCfg) : WPhase :=
  if cfg.firstOnly then .preCheck else .testing

/-- State at the start of a run, before any dispatch. -/
def initState (creds : List Credential) : SchedState :=
  ⟨creds, false, false, false, false, [], 0, [], 0, false⟩

/-- Labels naming which task takes a step and what it does. -/
inductive SLabel where
  | dispatch
  | dispStop
  | interrupt
  | wLockPre (i : Nat)
  | wPreSeen (i : Nat)
  | wPreGo (i : Nat)
  | wTest (i : Nat) (ok : Bool)
  | wLockRep (i : Nat)
  | wFirst (i : Nat)
  | wForward (i : Nat)
  | wSave (i : Nat)
  | collect
  | collectStop
  deriving DecidableEq

/-- One atomic step of the scheduler model. -/
inductive SchedStep (cfg : SchedCfg) : SchedState → SLabel → SchedState → Prop where
  /-- The dispatch loop receives the next pair and acquires a semaphore
  slot (possible whenever a slot is free, even under cancellation, since
  `select` chooses among ready branches). One worker is spawned. -/
  | dispatch {s : SchedState} {c : Credential} {rest : List Credential} :
      s.dispatcherDone = false →
      s.pending = c :: rest →
      inFlight s < cfg.workers →
      SchedStep cfg s .dispatch
        { s with pending := rest,
                 workers := s.workers ++ [⟨c, initPhase cfg⟩] }
  /-- The dispatch loop returns: it took the `ctx.Done()` branch of the
  `select`, or the pair generator is exhausted. -/
  | dispStop {s : SchedState} :
      s.dispatcherDone = false →
      (s.cancelled = true ∨ s.pending = []) →
      SchedStep cfg s .dispStop { s with dispatcherDone := true }
  /-- An external interrupt triggers the process-wide cancellation. -/
  | interrupt {s : SchedState} :
      SchedStep cfg s .interrupt { s with cancelled := true }
  /-- First-only pre-check: the worker acquires the mutex. -/
  | wLockPre {s : SchedState} (i : Nat) {c : Credential} :
      s.workers[i]? = some ⟨c, .preCheck⟩ →
      s.lockHeld = false →
      SchedStep cfg s (.wLockPre i)
        { s with lockHeld := true, workers := s.workers.set i ⟨c, .preHeld⟩ }
  /-- Pre-check sees the success flag set: unlock and return early. -/
  | wPreSeen {s : SchedState} (i : Nat) {c : Credential} :
      s.workers[i]? = some ⟨c, .preHeld⟩ →
      s.successFound = true →
      SchedStep cfg s (.wPreSeen i)
        { s with lockHeld := false, workers := s.workers.set i ⟨c, .finished⟩ }
  /-- Pre-check sees no success yet: unlock and go run the trial. -/
  | wPreGo {s : SchedState} (i : Nat) {c : Credential} :
      s.workers[i]? = some ⟨c, .preHeld⟩ →
      s.successFound = false →
      SchedStep cfg s (.wPreGo i)
        { s with lockHeld := false, workers := s.workers.set i ⟨c, .testing⟩ }
  /-- `testLogin` returns a non-empty result: only possible when the
  oracle allows this pair and cancellation has not yet been observed. -/
  | wTestOk {s : SchedState} (i : Nat) {c : Credential} :
      s.workers[i]? = some ⟨c, .testing⟩ →
      cfg.succeeds c = true →
      s.cancelled = false →
      SchedStep cfg s (.wTest i true)
        { s with workers := s.workers.set i ⟨c, .reporting⟩ }
  /-- `testLogin` returns the empty result (no connection, bad
  credentials, or cancellation): always possible. -/
  | wTestFail {s : SchedState} (i : Nat) {c : Credential} :
      s.workers[i]? = some ⟨c, .testing⟩ →
      SchedStep cfg s (.wTest i false)
        { s with workers := s.workers.set i ⟨c, .saving⟩ }
  /-- A successful worker acquires the mutex to report. -/
  | wLockRep {s : SchedState} (i : Nat) {c : Credential} :
      s.workers[i]? = some ⟨c, .reporting⟩ →
      s.lockHeld = false →
      SchedStep cfg s (.wLockRep i)
        { s with lockHeld := true, workers := s.workers.set i ⟨c, .repHeld⟩ }
  /-- First-only mode, flag still unset: set the flag, print the success,
  and cancel the context; then unlock. -/
  | wFirst {s : SchedState} (i : Nat) {c : Credential} :
      s.workers[i]? = some ⟨c, .repHeld⟩ →
      cfg.firstOnly = true →
      s.successFound = false →
      SchedStep cfg s (.wFirst i)
        { s with successFound := true, surfaced := s.surfaced + 1,
                 cancelled := true, lockHeld := false,
                 workers := s.workers.set i ⟨c, .saving⟩ }
  /-- Otherwise the result is sent to the `results` channel; then unlock. -/
  | wForward {s : SchedState} (i : Nat) {c : Credential} :
      s.workers[i]? = some ⟨c, .repHeld⟩ →
      (cfg.firstOnly = false ∨ s.successFound = true) →
      SchedStep cfg s (.wForward i)
        { s with resultsQ := s.resultsQ ++ [c], lockHeld := false,
                 workers := s.workers.set i ⟨c, .saving⟩ }
  /-- The worker updates the progress bar, writes the checkpoint via
  `saveState` (no lock is taken), and returns, releasing its slot. -/
  | wSave {s : SchedState} (i : Nat) {c : Credential} :
      s.workers[i]? = some ⟨c, .saving⟩ →
      SchedStep cfg s (.wSave i)
        { s with workers := s.workers.set i ⟨c, .finished⟩ }
  /-- The collector loop receives and prints a result (possible whenever
  the channel is non-empty, even under cancellation, since `select`
  chooses among ready branches). -/
  | collect {s : SchedState} {r : Credential} {rest : List Credential} :
      s.collectorDone = false →
      s.resultsQ = r :: rest →
      SchedStep cfg s .collect
        { s with resultsQ := rest, reported := s.reported + 1 }
  /-- The collector loop takes the `ctx.Done()` branch and returns. -/
  | collectStop {s : SchedState} :
      s.collectorDone = false →
      s.cancelled = true →
      SchedStep cfg s .collectStop { s with collectorDone := true }

/-- States reachable from `s0` by the scheduler model. -/
inductive SchedReach (cfg : SchedCfg) (s0 : SchedState) : SchedState → Prop where
  | refl : SchedReach cfg s0 s0
  | step {s : SchedState} {l : SLabel} {s' : SchedState} :
      SchedReach cfg s0 s → SchedStep cfg s l s' → SchedReach cfg s0 s'

theorem countP_set {α : Type} (p : α → Bool) :
    ∀ (l : List α) (i : Nat) (w w' : α), l[i]? = some w →
      (l.set i w').countP p + (if p w then 1 else 0) =
        l.countP p + (if p w' then 1 else 0) := by
  intro l
  induction l with
  | nil => intro i w w' h; simp at h
  | cons a t ih =>
      intro i w w' h
      cases i with
      | zero =>
          have hw : w = a := by simpa using h.symm
          subst hw
          cases hpw : p w <;> cases hpw' : p w' <;>
            simp [List.set_cons_zero, List.countP_cons, hpw, hpw']
      | succ i =>
          rw [List.getElem?_cons_succ] at h
          have hrec := ih i w w' h
          cases hpa : p a <;> cases hpw : p w <;> cases hpw' : p w' <;>
            simp [List.set_cons_succ, List.countP_cons, hpa, hpw, hpw'] at hrec ⊢ <;>
            omega

theorem countP_set_same {α : Type} (p : α → Bool) (l : List α) (i : Nat)
    (w w' : α) (h : l[i]? = some w) (hw : p w = p w') :
    (l.set i w').countP p = l.countP p := by
  have hc := countP_set p l i w w' h
  rw [hw] at hc
  omega

theorem countP_set_decr {α : Type} (p : α → Bool) (l : List α) (i : Nat)
    (w w' : α) (h : l[i]? = some w) (hw : p w = true) (hw' : p w' = false) :
    (l.set i w').countP p + 1 = l.countP p := by
  have hc := countP_set p l i w w' h
  rw [hw, hw'] at hc
  simp at hc
  omega

theorem countP_set_incr {α : Type} (p : α → Bool) (l : List α) (i : Nat)
    (w w' : α) (h : l[i]? = some w) (hw : p w = false) (hw' : p w' = true) :
    (l.set i w').countP p = l.countP p + 1 := by
  have hc := countP_set p l i w w' h
  rw [hw, hw'] at hc
  simp at hc
  omega

theorem countP_pos_of_getElem? {α : Type} (p : α → Bool) (l : List α) (i : Nat)
    (w : α) (h : l[i]? = some w) (hw : p w = true) : 1 ≤ l.countP p := by
  have hm : w ∈ l := List.getElem?_mem h
  have hpos := List.countP_pos_iff.mpr ⟨w, hm, hw⟩
  omega

theorem notFinished_initPhase (cfg : SchedCfg) :
    (initPhase cfg).notFinished = true := by
  unfold initPhase
  cases cfg.firstOnly <;> rfl

theorem holdsLock_initPhase (cfg : SchedCfg) :
    (initPhase cfg).holdsLock = false := by
  unfold initPhase
  cases cfg.firstOnly <;> rfl

/-- Every worker in flight occupies one semaphore slot, and the dispatch
loop acquires a slot before spawning: the in-flight count never exceeds
the configured worker count. -/
theorem inFlight_le (cfg : SchedCfg) (creds : List Credential) :
    ∀ s : SchedState, SchedReach cfg (initState creds) s →
      inFlight s ≤ cfg.workers := by
  intro s h
  induction h with
  | refl => simp [inFlight, initState]
  | step hr hs ih =>
      cases hs with
      | dispatch h1 h2 h3 =>
          simp only [inFlight] at ih h3 ⊢
          simp [List.countP_append, List.countP_cons, notFinished_initPhase]
          omega
      | dispStop h1 h2 => simpa [inFlight] using ih
      | interrupt => simpa [inFlight] using ih
      | @wLockPre i c h1 h2 =>
          have hc := countP_set_same (fun w => w.phase.notFinished) _ i
            ⟨c, .preCheck⟩ ⟨c, .preHeld⟩ h1 rfl
          simp only [inFlight] at ih ⊢
          omega
      | @wPreSeen i c h1 h2 =>
          have hc := countP_set_decr (fun w => w.phase.notFinished) _ i
            ⟨c, .preHeld⟩ ⟨c, .finished⟩ h1 rfl rfl
          simp only [inFlight] at ih ⊢
          omega
      | @wPreGo i c h1 h2 =>
          have hc := countP_set_same (fun w => w.phase.notFinished) _ i
            ⟨c, .preHeld⟩ ⟨c, .testing⟩ h1 rfl
          simp only [inFlight] at ih ⊢
          omega
      | @wTestOk i c h1 h2 h3 =>
          have hc := countP_set_same (fun w => w.phase.notFinished) _ i
            ⟨c, .testing⟩ ⟨c, .reporting⟩ h1 rfl
          simp only [inFlight] at ih ⊢
          omega
      | @wTestFail i c h1 =>
          have hc := countP_set_same (fun w => w.phase.notFinished) _ i
            ⟨c, .testing⟩ ⟨c, .saving⟩ h1 rfl
          simp only [inFlight] at ih ⊢
          omega
      | @wLockRep i c h1 h2 =>
          have hc := countP_set_same (fun w => w.phase.notFinished) _ i
            ⟨c, .reporting⟩ ⟨c, .repHeld⟩ h1 rfl
          simp only [inFlight] at ih ⊢
          omega
      | @wFirst i c h1 h2 h3 =>
          have hc := countP_set_same (fun w => w.phase.notFinished) _ i
            ⟨c, .repHeld⟩ ⟨c, .saving⟩ h1 rfl
          simp only [inFlight] at ih ⊢
          omega
      | @wForward i c h1 h2 =>
          have hc := countP_set_same (fun w => w.phase.notFinished) _ i
            ⟨c, .repHeld⟩ ⟨c, .saving⟩ h1 rfl
          simp only [inFlight] at ih ⊢
          omega
      | @wSave i c h1 =>
          have hc := countP_set_decr (fun w => w.phase.notFinished) _ i
            ⟨c, .saving⟩ ⟨c, .finished⟩ h1 rfl rfl
          simp only [inFlight] at ih ⊢
          omega
      | collect h1 h2 => simpa [inFlight] using ih
      | collectStop h1 h2 => simpa [inFlight] using ih

/-- Mutual exclusion: the mutex is held by at most one worker, and the
boolean lock state agrees with the number of workers inside a
lock-guarded section. -/
theorem lock_inv (cfg : SchedCfg) (creds : List Credential) :
    ∀ s : SchedState, SchedReach cfg (initState creds) s →
      (s.lockHeld = false → lockHolders s = 0) ∧
      (s.lockHeld = true → lockHolders s = 1) := by
  intro s h
  induction h with
  | refl => simp [lockHolders, initState]
  | @step t l u hr hs ih =>
      cases hs with
      | dispatch h1 h2 h3 =>
          simp only [lockHolders] at ih ⊢
          simpa [List.countP_append, List.countP_cons, holdsLock_initPhase] using ih
      | dispStop h1 h2 => simpa [lockHolders] using ih
      | interrupt => simpa [lockHolders] using ih
      | @wLockPre i c h1 h2 =>
          have hc := countP_set_incr (fun w => w.phase.holdsLock) _ i
            ⟨c, .preCheck⟩ ⟨c, .preHeld⟩ h1 rfl rfl
          have h0 := ih.1 h2
          simp only [lockHolders] at h0 hc ⊢
          exact ⟨fun hfalse => Bool.noConfusion hfalse, fun _ => by omega⟩
      | @wPreSeen i c h1 h2 =>
          have hc := countP_set_decr (fun w => w.phase.holdsLock) _ i
            ⟨c, .preHeld⟩ ⟨c, .finished⟩ h1 rfl rfl
          have hpos := countP_pos_of_getElem? (fun w => w.phase.holdsLock) _ i
            ⟨c, .preHeld⟩ h1 rfl
          have hheld : t.lockHeld = true := by
            cases hl : t.lockHeld
            · have h0 := ih.1 hl
              simp only [lockHolders] at h0
              omega
            · rfl
          have h1held := ih.2 hheld
          simp only [lockHolders] at h1held hc ⊢
          exact ⟨fun _ => by omega, fun htrue => Bool.noConfusion htrue⟩
      | @wPreGo i c h1 h2 =>
          have hc := countP_set_decr (fun w => w.phase.holdsLock) _ i
            ⟨c, .preHeld⟩ ⟨c, .testing⟩ h1 rfl rfl
          have hpos := countP_pos_of_getElem? (fun w => w.phase.holdsLock) _ i
            ⟨c, .preHeld⟩ h1 rfl
          have hheld : t.lockHeld = true := by
            cases hl : t.lockHeld
            · have h0 := ih.1 hl
              simp only [lockHolders] at h0
              omega
            · rfl
          have h1held := ih.2 hheld
          simp only [lockHolders] at h1held hc ⊢
          exact ⟨fun _ => by omega, fun htrue => Bool.noConfusion htrue⟩
      | @wTestOk i c h1 h2 h3 =>
          have hc := countP_set_same (fun w => w.phase.holdsLock) _ i
            ⟨c, .testing⟩ ⟨c, .reporting⟩ h1 rfl
          simp only [lockHolders] at ih hc ⊢
          exact ⟨fun hl => by rw [hc]; exact ih.1 hl, fun hl => by rw [hc]; exact ih.2 hl⟩
      | @wTestFail i c h1 =>
          have hc := countP_set_same (fun w => w.phase.holdsLock) _ i
            ⟨c, .testing⟩ ⟨c, .saving⟩ h1 rfl
          simp only [lockHolders] at ih hc ⊢
          exact ⟨fun hl => by rw [hc]; exact ih.1 hl, fun hl => by rw [hc]; exact ih.2 hl⟩
      | @wLockRep i c h1 h2 =>
          have hc := countP_set_incr (fun w => w.phase.holdsLock) _ i
            ⟨c, .reporting⟩ ⟨c, .repHeld⟩ h1 rfl rfl
          have h0 := ih.1 h2
          simp only [lockHolders] at h0 hc ⊢
          exact ⟨fun hfalse => Bool.noConfusion hfalse, fun _ => by omega⟩
      | @wFirst i c h1 h2 h3 =>
          have hc := countP_set_decr (fun w => w.phase.holdsLock) _ i
            ⟨c, .repHeld⟩ ⟨c, .saving⟩ h1 rfl rfl
          have hpos := countP_pos_of_getElem? (fun w => w.phase.holdsLock) _ i
            ⟨c, .repHeld⟩ h1 rfl
          have hheld : t.lockHeld = true := by
            cases hl : t.lockHeld
            · have h0 := ih.1 hl
              simp only [lockHolders] at h0
              omega
            · rfl
          have h1held := ih.2 hheld
          simp only [lockHolders] at h1held hc ⊢
          exact ⟨fun _ => by omega, fun htrue => Bool.noConfusion htrue⟩
      | @wForward i c h1 h2 =>
          have hc := countP_set_decr (fun w => w.phase.holdsLock) _ i
            ⟨c, .repHeld⟩ ⟨c, .saving⟩ h1 rfl rfl
          have hpos := countP_pos_of_getElem? (fun w => w.phase.holdsLock) _ i
            ⟨c, .repHeld⟩ h1 rfl
          have hheld : t.lockHeld = true := by
            cases hl : t.lockHeld
            · have h0 := ih.1 hl
              simp only [lockHolders] at h0
              omega
            · rfl
          have h1held := ih.2 hheld
          simp only [lockHolders] at h1held hc ⊢
          exact ⟨fun _ => by omega, fun htrue => Bool.noConfusion htrue⟩
      | @wSave i c h1 =>
          have hc := countP_set_same (fun w => w.phase.holdsLock) _ i
            ⟨c, .saving⟩ ⟨c, .finished⟩ h1 rfl
          simp only [lockHolders] at ih hc ⊢
          exact ⟨fun hl => by rw [hc]; exact ih.1 hl, fun hl => by rw [hc]; exact ih.2 hl⟩
      | collect h1 h2 => simpa [lockHolders] using ih
      | collectStop h1 h2 => simpa [lockHolders] using ih

/-- The first-only path runs at most once: the success flag is set by the
step that surfaces a first success, is checked under the same lock, and is
never cleared. -/
theorem surfaced_inv (cfg : SchedCfg) (creds : List Credential) :
    ∀ s : SchedState, SchedReach cfg (initState creds) s →
      s.surfaced ≤ 1 ∧ (s.successFound = false → s.surfaced = 0) := by
  intro s h
  induction h with
  | refl => simp [initState]
  | step hr hs ih =>
      cases hs with
      | @wFirst i c h1 h2 h3 =>
          have h0 := ih.2 h3
          constructor
          · simp [h0]
          · intro hfalse; cases hfalse
      | dispatch h1 h2 h3 => exact ih
      | dispStop h1 h2 => exact ih
      | interrupt => exact ih
      | @wLockPre i c h1 h2 => exact ih
      | @wPreSeen i c h1 h2 => exact ih
      | @wPreGo i c h1 h2 => exact ih
      | @wTestOk i c h1 h2 h3 => exact ih
      | @wTestFail i c h1 => exact ih
      | @wLockRep i c h1 h2 => exact ih
      | @wForward i c h1 h2 => exact ih
      | @wSave i c h1 => exact ih
      | collect h1 h2 => exact ih
      | collectStop h1 h2 => exact ih

/-- C2: for any configured worker count of at least one, the number of
simultaneously in-flight trial executions never exceeds the worker count,
and a dispatch step is only possible while a slot is free. -/
theorem C2_bounded_concurrency (cfg : SchedCfg) (creds : List Credential)
    (s : SchedState) (_hW : 1 ≤ cfg.workers)
    (h : SchedReach cfg (initState creds) s) :
    inFlight s ≤ cfg.workers ∧
    (∀ s' : SchedState, SchedStep cfg s SLabel.dispatch s' →
      inFlight s < cfg.workers) := by
  refine ⟨inFlight_le cfg creds s h, ?_⟩
  intro s' hs
  cases hs with
  | dispatch h1 h2 h3 => exact h3

theorem C2_bounded_concurrency_witness :
    1 ≤ (⟨3, false, fun _ => false⟩ : SchedCfg).workers ∧
    (inFlight (initState [⟨"u1", "p1"⟩]) ≤
        (⟨3, false, fun _ => false⟩ : SchedCfg).workers ∧
      (∀ s' : SchedState,
        SchedStep ⟨3, false, fun _ => false⟩ (initState [⟨"u1", "p1"⟩])
          SLabel.dispatch s' →
        inFlight (initState [⟨"u1", "p1"⟩]) <
          (⟨3, false, fun _ => false⟩ : SchedCfg).workers)) :=
  ⟨by decide, C2_bounded_concurrency ⟨3, false, fun _ => false⟩ [⟨"u1", "p1"⟩] _
    (by decide) SchedReach.refl⟩

/-- C1 counterexample: in early-exit mode with two pairs that would both
succeed, there is an interleaving in which one success is surfaced by the
first-success path and a second success is forwarded to the results
channel and then printed by the collector: two successes reach the user,
so the second success is not discarded. -/
theorem C1_counterexample : ∃ s : SchedState,
    SchedReach ⟨2, true, fun _ => true⟩
      (initState [⟨"alice", "pw1"⟩, ⟨"bob", "pw2"⟩]) s ∧
    s.surfaced = 1 ∧ s.reported = 1 := by
  have h0 : SchedReach ⟨2, true, fun _ => true⟩
      (initState [⟨"alice", "pw1"⟩, ⟨"bob", "pw2"⟩])
      (initState [⟨"alice", "pw1"⟩, ⟨"bob", "pw2"⟩]) := SchedReach.refl
  have h1 := h0.step (SchedStep.dispatch rfl rfl (by decide))
  have h2 := h1.step (SchedStep.dispatch rfl rfl (by decide))
  have h3 := h2.step (SchedStep.wLockPre 0 rfl rfl)
  have h4 := h3.step (SchedStep.wPreGo 0 rfl rfl)
  have h5 := h4.step (SchedStep.wLockPre 1 rfl rfl)
  have h6 := h5.step (SchedStep.wPreGo 1 rfl rfl)
  have h7 := h6.step (SchedStep.wTestOk 0 rfl rfl rfl)
  have h8 := h7.step (SchedStep.wTestOk 1 rfl rfl rfl)
  have h9 := h8.step (SchedStep.wLockRep 0 rfl rfl)
  have h10 := h9.step (SchedStep.wFirst 0 rfl rfl rfl)
  have h11 := h10.step (SchedStep.wLockRep 1 rfl rfl)
  have h12 := h11.step (SchedStep.wForward 1 rfl (Or.inr rfl))
  have h13 := h12.step (SchedStep.collect rfl rfl)
  exact ⟨_, h13, rfl, rfl⟩

/-- C1 amended: in early-exit mode the first-success path runs at most
once per run (the lock-guarded check-and-set of the flag cannot fire
twice); a further concurrent success is not discarded but forwarded to
the results channel, which is only possible once the flag is already
set. -/
theorem C1_amended_single_first_success (cfg : SchedCfg)
    (creds : List Credential) (s : SchedState) (hf : cfg.firstOnly = true)
    (h : SchedReach cfg (initState creds) s) :
    s.surfaced ≤ 1 ∧
    (∀ (l : SLabel) (i : Nat) (s' : SchedState), SchedStep cfg s l s' →
      l = SLabel.wForward i → s.successFound = true) := by
  refine ⟨(surfaced_inv cfg creds s h).1, ?_⟩
  intro l i s' hs hl
  cases hs with
  | wForward j h1 h2 =>
      rcases h2 with h2 | h2
      · rw [hf] at h2
        exact Bool.noConfusion h2
      · exact h2
  | dispatch h1 h2 h3 => exact SLabel.noConfusion hl
  | dispStop h1 h2 => exact SLabel.noConfusion hl
  | interrupt => exact SLabel.noConfusion hl
  | wLockPre j h1 h2 => exact SLabel.noConfusion hl
  | wPreSeen j h1 h2 => exact SLabel.noConfusion hl
  | wPreGo j h1 h2 => exact SLabel.noConfusion hl
  | wTestOk j h1 h2 h3 => exact SLabel.noConfusion hl
  | wTestFail j h1 => exact SLabel.noConfusion hl
  | wLockRep j h1 h2 => exact SLabel.noConfusion hl
  | wFirst j h1 h2 h3 => exact SLabel.noConfusion hl
  | wSave j h1 => exact SLabel.noConfusion hl
  | collect h1 h2 => exact SLabel.noConfusion hl
  | collectStop h1 h2 => exact SLabel.noConfusion hl

theorem C1_amended_single_first_success_witness :
    (⟨2, true, fun _ => true⟩ : SchedCfg).firstOnly = true ∧
    ((initState []).surfaced ≤ 1 ∧
      (∀ (l : SLabel) (i : Nat) (s' : SchedState),
        SchedStep ⟨2, true, fun _ => true⟩ (initState []) l s' →
        l = SLabel.wForward i →
        (initState []).successFound = true)) :=
  ⟨rfl, C1_amended_single_first_success ⟨2, true, fun _ => true⟩ [] _ rfl
    SchedReach.refl⟩

/-- C7 counterexample: two workers reach the checkpoint write at the same
time with the lock free, and the checkpoint-writing step (`saveState`)
fires without any lock being held: the checkpoint store is mutated
outside the mutual-exclusion lock. -/
theorem C7_counterexample : ∃ s s' : SchedState,
    SchedReach ⟨2, false, fun _ => false⟩
      (initState [⟨"u1", "p1"⟩, ⟨"u2", "p2"⟩]) s ∧
    SchedStep ⟨2, false, fun _ => false⟩ s (SLabel.wSave 0) s' ∧
    s.lockHeld = false ∧
    s.workers.countP (fun w => decide (w.phase = WPhase.saving)) = 2 := by
  have h0 : SchedReach ⟨2, false, fun _ => false⟩
      (initState [⟨"u1", "p1"⟩, ⟨"u2", "p2"⟩])
      (initState [⟨"u1", "p1"⟩, ⟨"u2", "p2"⟩]) := SchedReach.refl
  have h1 := h0.step (SchedStep.dispatch rfl rfl (by decide))
  have h2 := h1.step (SchedStep.dispatch rfl rfl (by decide))
  have h3 := h2.step (SchedStep.wTestFail 0 rfl)
  have h4 := h3.step (SchedStep.wTestFail 1 rfl)
  exact ⟨_, _, h4, SchedStep.wSave 0 rfl, rfl, by decide⟩

/-- C7 amended: the success flag is mutated only by the lock-guarded
first-success step, performed by a worker inside a lock-guarded section
while the lock is held, and the lock provides mutual exclusion; the
checkpoint write, by contrast, is not performed under the lock. -/
theorem C7_amended_lock_discipline (cfg : SchedCfg) (creds : List Credential)
    (s : SchedState) (h : SchedReach cfg (initState creds) s) :
    ((s.lockHeld = false → lockHolders s = 0) ∧
      (s.lockHeld = true → lockHolders s = 1)) ∧
    (∀ (l : SLabel) (s' : SchedState), SchedStep cfg s l s' →
      s'.successFound ≠ s.successFound →
      ∃ (i : Nat) (c : Credential), l = SLabel.wFirst i ∧
        s.workers[i]? = some ⟨c, WPhase.repHeld⟩ ∧ s.lockHeld = true) := by
  refine ⟨lock_inv cfg creds s h, ?_⟩
  intro l s' hs hne
  cases hs with
  | @wFirst i c h1 h2 h3 =>
      have hpos := countP_pos_of_getElem? (fun w => w.phase.holdsLock) _ i
        ⟨c, .repHeld⟩ h1 rfl
      have hheld : s.lockHeld = true := by
        cases hl : s.lockHeld
        · have h0 := (lock_inv cfg creds s h).1 hl
          simp only [lockHolders] at h0
          omega
        · rfl
      exact ⟨i, c, rfl, h1, hheld⟩
  | dispatch h1 h2 h3 => exact absurd rfl hne
  | dispStop h1 h2 => exact absurd rfl hne
  | interrupt => exact absurd rfl hne
  | wLockPre i h1 h2 => exact absurd rfl hne
  | wPreSeen i h1 h2 => exact absurd rfl hne
  | wPreGo i h1 h2 => exact absurd rfl hne
  | wTestOk i h1 h2 h3 => exact absurd rfl hne
  | wTestFail i h1 => exact absurd rfl hne
  | wLockRep i h1 h2 => exact absurd rfl hne
  | wForward i h1 h2 => exact absurd rfl hne
  | wSave i h1 => exact absurd rfl hne
  | collect h1 h2 => exact absurd rfl hne
  | collectStop h1 h2 => exact absurd rfl hne

theorem C7_amended_lock_discipline_witness :
    (((initState []).lockHeld = false → lockHolders (initState []) = 0) ∧
      ((initState []).lockHeld = true → lockHolders (initState []) = 1)) ∧
    (∀ (l : SLabel) (s' : SchedState),
      SchedStep ⟨1, true, fun _ => true⟩ (initState []) l s' →
      s'.successFound ≠ (initState []).successFound →
      ∃ (i : Nat) (c : Credential), l = SLabel.wFirst i ∧
        (initState []).workers[i]? = some ⟨c, WPhase.repHeld⟩ ∧
        (initState []).lockHeld = true) :=
  C7_amended_lock_discipline ⟨1, true, fun _ => true⟩ [] _ SchedReach.refl

/-- C8 counterexample: after cancellation is triggered, the dispatch loop
can still accept two further pairs in two further iterations, because the
per-iteration `select` may keep choosing the semaphore branch over the
ready cancellation branch. -/
theorem C8_counterexample : ∃ s1 s2 s3 : SchedState,
    SchedStep ⟨2, false, fun _ => false⟩
      (initState [⟨"u1", "p1"⟩, ⟨"u2", "p2"⟩]) SLabel.interrupt s1 ∧
    s1.cancelled = true ∧
    SchedStep ⟨2, false, fun _ => false⟩ s1 SLabel.dispatch s2 ∧
    SchedStep ⟨2, false, fun _ => false⟩ s2 SLabel.dispatch s3 :=
  ⟨_, _, _, SchedStep.interrupt, rfl,
    SchedStep.dispatch rfl rfl (by decide),
    SchedStep.dispatch rfl rfl (by decide)⟩

/-- C8 amended: cancellation stops admission only when the dispatch loop
selects its cancellation branch; each iteration accepts at most one pair,
and once the dispatch loop has stopped it stays stopped and no further
pair is ever accepted, while other tasks continue to take steps. -/
theorem C8_amended_no_dispatch_after_stop (cfg : SchedCfg) (s : SchedState)
    (l : SLabel) (s' : SchedState) (h : SchedStep cfg s l s') :
    (s.dispatcherDone = true → s'.dispatcherDone = true ∧ l ≠ SLabel.dispatch) ∧
    (l = SLabel.dispatch →
      s.dispatcherDone = false ∧ ∃ c : Credential, s.pending = c :: s'.pending) := by
  cases h with
  | @dispatch c r h1 h2 h3 =>
      refine ⟨fun hd => ?_, fun _ => ⟨h1, c, h2⟩⟩
      rw [h1] at hd
      exact Bool.noConfusion hd
  | dispStop h1 h2 =>
      exact ⟨fun _ => ⟨rfl, fun hl => SLabel.noConfusion hl⟩,
        fun he => SLabel.noConfusion he⟩
  | interrupt =>
      exact ⟨fun hd => ⟨hd, fun hl => SLabel.noConfusion hl⟩,
        fun he => SLabel.noConfusion he⟩
  | wLockPre i h1 h2 =>
      exact ⟨fun hd => ⟨hd, fun hl => SLabel.noConfusion hl⟩,
        fun he => SLabel.noConfusion he⟩
  | wPreSeen i h1 h2 =>
      exact ⟨fun hd => ⟨hd, fun hl => SLabel.noConfusion hl⟩,
        fun he => SLabel.noConfusion he⟩
  | wPreGo i h1 h2 =>
      exact ⟨fun hd => ⟨hd, fun hl => SLabel.noConfusion hl⟩,
        fun he => SLabel.noConfusion he⟩
  | wTestOk i h1 h2 h3 =>
      exact ⟨fun hd => ⟨hd, fun hl => SLabel.noConfusion hl⟩,
        fun he => SLabel.noConfusion he⟩
  | wTestFail i h1 =>
      exact ⟨fun hd => ⟨hd, fun hl => SLabel.noConfusion hl⟩,
        fun he => SLabel.noConfusion he⟩
  | wLockRep i h1 h2 =>
      exact ⟨fun hd => ⟨hd, fun hl => SLabel.noConfusion hl⟩,
        fun he => SLabel.noConfusion he⟩
  | wFirst i h1 h2 h3 =>
      exact ⟨fun hd => ⟨hd, fun hl => SLabel.noConfusion hl⟩,
        fun he => SLabel.noConfusion he⟩
  | wForward i h1 h2 =>
      exact ⟨fun hd => ⟨hd, fun hl => SLabel.noConfusion hl⟩,
        fun he => SLabel.noConfusion he⟩
  | wSave i h1 =>
      exact ⟨fun hd => ⟨hd, fun hl => SLabel.noConfusion hl⟩,
        fun he => SLabel.noConfusion he⟩
  | collect h1 h2 =>
      exact ⟨fun hd => ⟨hd, fun hl => SLabel.noConfusion hl⟩,
        fun he => SLabel.noConfusion he⟩
  | collectStop h1 h2 =>
      exact ⟨fun hd => ⟨hd, fun hl => SLabel.noConfusion hl⟩,
        fun he => SLabel.noConfusion he⟩

theorem C8_amended_no_dispatch_after_stop_witness :
    ((initState [⟨"u1", "p1"⟩]).dispatcherDone = true →
      ({ initState [⟨"u1", "p1"⟩] with cancelled := true } :
          SchedState).dispatcherDone = true ∧
        SLabel.interrupt ≠ SLabel.dispatch) ∧
    (SLabel.interrupt = SLabel.dispatch →
      (initState [⟨"u1", "p1"⟩]).dispatcherDone = false ∧
      ∃ c : Credential, (initState [⟨"u1", "p1"⟩]).pending =
        c :: ({ initState [⟨"u1", "p1"⟩] with cancelled := true } :
          SchedState).pending) :=
  C8_amended_no_dispatch_after_stop ⟨1, true, fun _ => true⟩ _ _ _
    SchedStep.interrupt

end SqlBlaster
